import Mathlib

/-!
Verification of the VAR estimation utilities of statsmodels
(statsmodels/tsa/vector_ar/util.py).

The Python functions are embedded shallowly:
matrices become functions over natural-number indices with rational entries
(or lists of rows where the claim is about shapes), fallible code returns
Option or Except, and numpy floating point arithmetic is modelled exactly
over the rationals.
-/

namespace VarUtil

/-! ## Generic list helpers used by several embeddings -/

/-- Python list.insert: insert an element before position n (clamped to the end,
as Python does). -/
def insertAt {α : Type} (xs : List α) (n : Nat) (a : α) : List α :=
  xs.take n ++ a :: xs.drop n

/-- An appending loop: starting from the empty list, for i in range(n)
append the whole block f i.  Used to embed Python loops that grow a list. -/
def concatMapRange {α : Type} (f : Nat → List α) : Nat → List α
  | 0 => []
  | n + 1 => concatMapRange f n ++ f n

/-- Entry (i, j) of a matrix given as a list of rows, as an Option. -/
def entry? (Z : List (List ℚ)) (i j : Nat) : Option ℚ :=
  match Z[i]? with
  | some row => row[j]?
  | none => none

/-- Length of row i of a matrix given as a list of rows, as an Option. -/
def rowLength? (Z : List (List ℚ)) (i : Nat) : Option Nat :=
  match Z[i]? with
  | some row => some row.length
  | none => none

/-! ## get_trendorder

Source (util.py lines 43-53): a chain of if/elif with no else branch;
an unrecognized trend string leaves the local variable unbound, so the
function raises instead of returning.  The fallible behaviour is embedded
as an Option. -/

def get_trendorder (trend : String) : Option Nat :=
  if trend = ("c" : String) then some 1
  else if trend = ("nc" : String) then some 0
  else if trend = ("ct" : String) then some 2
  else if trend = ("ctt" : String) then some 3
  else none

/-! ## make_lag_names

Source (util.py lines 56-87).  The names argument is either a single string
(treated as a one-element list after the isinstance check) or a list of
strings.  The exog argument contributes one inserted name per column; it is
embedded by its column count. -/

inductive Names where
  | str : String → Names
  | list : List String → Names

def lagNamesOf (ns : List String) (lag_order : Nat) : List String :=
  concatMapRange (fun i => ns.map (fun nm => ("L" : String) ++ Nat.repr (i + 1) ++ ("." : String) ++ nm)) lag_order

def make_lag_names (names : Names) (lag_order trendorder : Nat) (exog : Option Nat) : List String :=
  let ns := match names with
    | .str s => [s]
    | .list l => l
  let lag_names := lagNamesOf ns lag_order
  let l1 := if trendorder ≠ 0 then insertAt lag_names 0 ("const" : String) else lag_names
  let l2 := if 1 < trendorder then insertAt l1 1 ("trend" : String) else l1
  let l3 := if 2 < trendorder then insertAt l2 2 ("trend**2" : String) else l2
  match exog with
  | none => l3
  | some m => (List.range m).foldl
      (fun acc i => insertAt acc (trendorder + i) (("exog" : String) ++ Nat.repr i)) l3

/-- The trend names in the order the spec states them: const, then trend,
then trend**2 as the trend order increases. -/
def trendNames (t : Nat) : List String :=
  (if 1 ≤ t then [("const" : String)] else []) ++
  (if 2 ≤ t then [("trend" : String)] else []) ++
  (if 3 ≤ t then [("trend**2" : String)] else [])

/-- The exogenous placeholder names exog0, exog1, ... -/
def exogNames (m : Nat) : List String :=
  (List.range m).map (fun i => ("exog" : String) ++ Nat.repr i)

/-- The lag-name sequence for a single variable name s: L1.s, ..., Ln.s. -/
def strLagNames (s : String) (lag_order : Nat) : List String :=
  (List.range lag_order).map (fun i => ("L" : String) ++ Nat.repr (i + 1) ++ ("." : String) ++ s)

/-! ## get_var_endog

Source (util.py lines 20-40): rows are y[t-lags:t][::-1].ravel() for
t in range(lags, nobs); row j of the reversed slice is observation
y[t-1-j], so the raveled row lists y[t-1], ..., y[t-lags], each with its
K variables contiguous.  The trend columns are prepended by
tsa.add_trend, which is not part of this repository snapshot. -/

/-- Modelled from the spec: the value of trend column c in row i, per the
spec of the Lag/Design-Matrix Builder (1s; 1s+linear index;
1s+linear+quadratic).  tsa.add_trend itself is not under src. -/
def trendVal (c i : Nat) : ℚ :=
  if c = 0 then 1 else if c = 1 then (i : ℚ) else (i : ℚ) ^ 2

def trendCols (tord i : Nat) : List ℚ :=
  (List.range tord).map (fun c => trendVal c i)

/-- Modelled from the spec: tsa.add_trend with prepend=True adds the trend
columns in front of every row; the number of columns is the trend order. -/
def prependTrend (tord : Nat) : Nat → List (List ℚ) → List (List ℚ)
  | _, [] => []
  | i, row :: rest => (trendCols tord i ++ row) :: prependTrend tord (i + 1) rest

/-- One row of the lag design matrix: y[t-lags:t][::-1].ravel(). -/
def lag_row (y : Nat → Nat → ℚ) (K lags t : Nat) : List ℚ :=
  concatMapRange (fun j => (List.range K).map (fun v => y (t - 1 - j) v)) lags

def get_var_endog (y : Nat → Nat → ℚ) (nobs K lags : Nat) (trend : String) :
    Option (List (List ℚ)) :=
  match get_trendorder trend with
  | none => none
  | some tord =>
    let Z := (List.range' lags (nobs - lags)).map (fun t => lag_row y K lags t)
    some (if trend = ("nc" : String) then Z else prependTrend tord 0 Z)

/-! ## comp_matrix

Source (util.py lines 90-112): a (kp x kp) zero matrix whose top k rows are
np.concatenate(coefs, axis=1) (so column c holds entry (c % k) of slice
c / k) and whose entries (k + i, i), i < kp - k, are set to 1. -/

def comp_entry (_p k : Nat) (coefs : Nat → Nat → Nat → ℚ) (r c : Nat) : ℚ :=
  if r < k then coefs (c / k) r (c % k)
  else if r = c + k then 1 else 0

def comp_matrix (p k : Nat) (coefs : Nat → Nat → Nat → ℚ) : List (List ℚ) :=
  (List.range (k * p)).map (fun r => (List.range (k * p)).map (fun c => comp_entry p k coefs r c))

/-! ## vech

Source (util.py lines 292-308): for each column i, append A[b, i] for
b = i, i+1, ..., length-1. -/

def vech (K : Nat) (A : Nat → Nat → ℚ) : List ℚ :=
  concatMapRange (fun i => (List.range' i (K - i)).map (fun b => A b i)) K

/-- Offset of the column-i block inside vech: the lengths of the previous
column blocks, column j contributing K - j entries. -/
def vechOffset (K i : Nat) : Nat :=
  ∑ j ∈ Finset.range i, (K - j)

/-! ## seasonal_dummies

Source (util.py lines 311-345): column i of the zero matrix receives ones
at the strided rows (i - first_period) % n_seasons :: n_seasons, that is,
at rows r with start ≤ r and (r - start) % n_seasons = 0 where start is
the Python (sign-of-divisor) modulus of i - first_period. -/

def dummy_start (n_seasons first_period i : Nat) : Nat :=
  (((i : Int) - (first_period : Int)) % (n_seasons : Int)).toNat

def seasonal_entry (n_seasons first_period : Nat) (centered : Bool) (r i : Nat) : ℚ :=
  (if dummy_start n_seasons first_period i ≤ r ∧
      (r - dummy_start n_seasons first_period i) % n_seasons = 0 then (1 : ℚ) else 0) -
  (if centered then (1 : ℚ) / (n_seasons : ℚ) else 0)

def seasonal_dummies (n_seasons len_endog first_period : Nat) (centered : Bool) :
    List (List ℚ) :=
  if n_seasons = 0 then (List.range len_endog).map (fun _ => ([] : List ℚ))
  else (List.range len_endog).map
    (fun r => (List.range (n_seasons - 1)).map
      (fun i => seasonal_entry n_seasons first_period centered r i))

/-! ## varsim

Source (util.py lines 197-264).  The intercept is None, a 1-D vector, or a
2-D offset carrying its own row count; a 2-D offset whose row count differs
from steps (the length of the noise draw ugen) raises.  The noise matrix
ugen abstracts rs.multivariate_normal(zeros, cov_resid, steps).  The AR
loop mutates row t in place; it is embedded as a fold of single-row
updates over range(p, steps). -/

inductive Intercept where
  | none : Intercept
  | vec : (Nat → ℚ) → Intercept
  | mat : Nat → (Nat → Nat → ℚ) → Intercept

/-- The per-entry contribution of the intercept argument: zero when absent,
the same vector in every row when 1-D, the matching row when 2-D. -/
def iceptFun : Intercept → Nat → Nat → ℚ
  | .none => fun _ _ => 0
  | .vec v => fun _ r => v r
  | .mat _ f => fun t r => f t r

/-- The state of result after the vectorized initialisation
(result += intercept; result[p:] += ugen[p:]) and before the AR loop. -/
def initResult (p : Nat) (icept : Nat → Nat → ℚ) (ugen : Nat → Nat → ℚ) :
    Nat → Nat → ℚ :=
  fun t r => icept t r + if p ≤ t then ugen t r else 0

/-- The autoregressive contribution added to row t:
sum over j in range(p) of np.dot(coefs[j], result[t-j-1]). -/
def arTerm (p K : Nat) (coefs : Nat → Nat → Nat → ℚ) (res : Nat → Nat → ℚ)
    (t r : Nat) : ℚ :=
  ∑ j ∈ Finset.range p, ∑ c ∈ Finset.range K, coefs j r c * res (t - j - 1) c

/-- One iteration of the AR loop: row t gets the lag terms added, all other
rows are unchanged. -/
def arStep (p K : Nat) (coefs : Nat → Nat → Nat → ℚ) (res : Nat → Nat → ℚ)
    (t : Nat) : Nat → Nat → ℚ :=
  fun s r => if s = t then res t r + arTerm p K coefs res t r else res s r

/-- The AR loop: for t in range(p, steps), add the lag terms into row t. -/
def arLoop (p K steps : Nat) (coefs : Nat → Nat → Nat → ℚ)
    (res0 : Nat → Nat → ℚ) : Nat → Nat → ℚ :=
  (List.range' p (steps - p)).foldl (arStep p K coefs) res0

def lengthErrMsg : String := "2-D intercept needs to have length steps"

def varsim (p K steps : Nat) (coefs : Nat → Nat → Nat → ℚ)
    (intercept : Intercept) (ugen : Nat → Nat → ℚ) :
    Except String (Nat → Nat → ℚ) :=
  match intercept with
  | .mat rows f =>
      if rows = steps then
        .ok (arLoop p K steps coefs (initResult p (iceptFun (.mat rows f)) ugen))
      else .error lengthErrMsg
  | ic => .ok (arLoop p K steps coefs (initResult p (iceptFun ic) ugen))

/-- Modelled from the spec: the external seedable Gaussian sampler.  numpy
RandomState(seed).multivariate_normal is a pure function of the integer
seed (deterministic when seeded, per the spec's external-interface
contract), while the unseeded path reads the ambient global generator
state.  mkNoise maps a seed to the noise matrix it produces for the fixed
covariance and step count; globalNoise is the ambient draw. -/
def drawNoise (mkNoise : Nat → Nat → Nat → ℚ) (globalNoise : Nat → Nat → ℚ) :
    Option Nat → Nat → Nat → ℚ
  | some s => mkNoise s
  | none => globalNoise

/-- varsim with the seed-dispatch of util.py lines 234-245 made explicit:
an integer seed selects a freshly seeded generator, no seed falls back to
the ambient global generator. -/
def varsimSeeded (p K steps : Nat) (coefs : Nat → Nat → Nat → ℚ)
    (intercept : Intercept) (mkNoise : Nat → Nat → Nat → ℚ)
    (globalNoise : Nat → Nat → ℚ) (seed : Option Nat) :
    Except String (Nat → Nat → ℚ) :=
  varsim p K steps coefs intercept (drawNoise mkNoise globalNoise seed)

/-! ## Witness fixtures: concrete inputs used to instantiate the theorems -/

def coefsW : Nat → Nat → Nat → ℚ := fun j r c => (j : ℚ) + 2 * (r : ℚ) + 3 * (c : ℚ) + 1

def ugenW : Nat → Nat → ℚ := fun t r => (t : ℚ) + (r : ℚ) + 1

def AW : Nat → Nat → ℚ := fun r c => (r : ℚ) * 10 + (c : ℚ)

def yW : Nat → Nat → ℚ := fun t v => (t : ℚ) * 100 + (v : ℚ)

def fW : Nat → Nat → ℚ := fun t r => (t : ℚ) * 7 + (r : ℚ)

/-- The design matrix get_var_endog yW 3 1 1 ct evaluates to. -/
def designW3 : List (List ℚ) :=
  prependTrend 2 0 ((List.range' 1 (3 - 1)).map (fun t => lag_row yW 1 1 t))

/-- The design matrix get_var_endog yW 3 2 2 c evaluates to. -/
def designW4 : List (List ℚ) :=
  prependTrend 1 0 ((List.range' 2 (3 - 2)).map (fun t => lag_row yW 2 2 t))

/-! ## List helper lemmas -/

theorem length_concatMapRange {α : Type} (f : Nat → List α) (n : Nat) :
    (concatMapRange f n).length = ∑ j ∈ Finset.range n, (f j).length := by
  induction n with
  | zero => rfl
  | succ n ih => simp [concatMapRange, ih, Finset.sum_range_succ]

theorem getElem?_concatMapRange {α : Type} (f : Nat → List α) (n i r : Nat)
    (hi : i < n) (hr : r < (f i).length) :
    (concatMapRange f n)[(∑ j ∈ Finset.range i, (f j).length) + r]? = (f i)[r]? := by
  induction n with
  | zero => omega
  | succ n ih =>
    rcases Nat.lt_succ_iff_lt_or_eq.mp hi with h | h
    · have hlt : (∑ j ∈ Finset.range i, (f j).length) + r < (concatMapRange f n).length := by
        rw [length_concatMapRange]
        calc (∑ j ∈ Finset.range i, (f j).length) + r
            < (∑ j ∈ Finset.range i, (f j).length) + (f i).length := by omega
          _ = ∑ j ∈ Finset.range (i + 1), (f j).length :=
              (Finset.sum_range_succ (fun j => (f j).length) i).symm
          _ ≤ ∑ j ∈ Finset.range n, (f j).length :=
              Finset.sum_le_sum_of_subset (Finset.range_subset.mpr h)
      simp only [concatMapRange]
      rw [List.getElem?_append, if_pos hlt]
      exact ih h
    · subst h
      simp only [concatMapRange]
      rw [List.getElem?_append, length_concatMapRange, if_neg (by omega)]
      have heq : (∑ j ∈ Finset.range i, (f j).length) + r -
          (∑ j ∈ Finset.range i, (f j).length) = r := by omega
      rw [heq]

theorem insertAt_zero {α : Type} (xs : List α) (a : α) : insertAt xs 0 a = a :: xs := by
  simp [insertAt]

theorem insertAt_at_length {α : Type} (A B : List α) (a : α) :
    insertAt (A ++ B) A.length a = A ++ a :: B := by
  unfold insertAt
  rw [List.take_left, List.drop_left]

theorem range'_one_concat (s n : Nat) :
    List.range' s (n + 1) = List.range' s n ++ [s + n] := by
  have h := @List.range'_concat 1 s n
  simpa using h

theorem sum_range_sub (K : Nat) : ∑ j ∈ Finset.range K, (K - j) = K * (K + 1) / 2 := by
  induction K with
  | zero => rfl
  | succ K ih =>
    have hstep : ∑ j ∈ Finset.range (K + 1), (K + 1 - j) =
        (∑ j ∈ Finset.range K, (K - j)) + K + 1 := by
      rw [Finset.sum_range_succ]
      have hcongr : ∑ j ∈ Finset.range K, (K + 1 - j) =
          ∑ j ∈ Finset.range K, ((K - j) + 1) := by
        apply Finset.sum_congr rfl
        intro j hj
        have := Finset.mem_range.mp hj
        omega
      rw [hcongr, Finset.sum_add_distrib, Finset.sum_const, Finset.card_range]
      simp
    rw [hstep, ih]
    have hmul : (K + 1) * (K + 1 + 1) = K * (K + 1) + (K + 1) * 2 := by ring
    rw [hmul, Nat.add_mul_div_right _ _ (by norm_num : 0 < 2)]
    omega

/-! ## The AR loop of varsim -/

theorem arTerm_congr (p K : Nat) (coefs : Nat → Nat → Nat → ℚ)
    (f g : Nat → Nat → ℚ) (t r : Nat) (hpt : p ≤ t)
    (h : ∀ s c, s < t → f s c = g s c) :
    arTerm p K coefs f t r = arTerm p K coefs g t r := by
  unfold arTerm
  apply Finset.sum_congr rfl
  intro j hj
  have hj' := Finset.mem_range.mp hj
  apply Finset.sum_congr rfl
  intro c _
  rw [h (t - j - 1) c (by omega)]

theorem arLoop_invariant (p K : Nat) (coefs : Nat → Nat → Nat → ℚ)
    (res0 : Nat → Nat → ℚ) (m : Nat) :
    (∀ t r, p + m ≤ t →
      (List.range' p m).foldl (arStep p K coefs) res0 t r = res0 t r) ∧
    (∀ t r, t < p →
      (List.range' p m).foldl (arStep p K coefs) res0 t r = res0 t r) ∧
    (∀ t r, p ≤ t → t < p + m →
      (List.range' p m).foldl (arStep p K coefs) res0 t r =
        res0 t r +
          arTerm p K coefs ((List.range' p m).foldl (arStep p K coefs) res0) t r) := by
  induction m with
  | zero =>
    exact ⟨fun t r _ => rfl, fun t r _ => rfl, fun t r h1 h2 => by omega⟩
  | succ m ih =>
    obtain ⟨ih1, ih2, ih3⟩ := ih
    have hconcat : List.range' p (m + 1) = List.range' p m ++ [p + m] :=
      range'_one_concat p m
    simp only [hconcat, List.foldl_append, List.foldl_cons, List.foldl_nil]
    set F := (List.range' p m).foldl (arStep p K coefs) res0 with hF
    refine ⟨?_, ?_, ?_⟩
    · intro t r ht
      show arStep p K coefs F (p + m) t r = res0 t r
      unfold arStep
      rw [if_neg (by omega)]
      exact ih1 t r (by omega)
    · intro t r ht
      show arStep p K coefs F (p + m) t r = res0 t r
      unfold arStep
      rw [if_neg (by omega)]
      exact ih2 t r ht
    · intro t r h1 h2
      show arStep p K coefs F (p + m) t r =
        res0 t r + arTerm p K coefs (arStep p K coefs F (p + m)) t r
      rcases Nat.lt_or_ge t (p + m) with hlt | hge
      · have hv : arStep p K coefs F (p + m) t r = F t r := by
          unfold arStep
          rw [if_neg (by omega)]
        rw [hv, ih3 t r h1 hlt]
        congr 1
        apply arTerm_congr p K coefs F (arStep p K coefs F (p + m)) t r h1
        intro s c hs
        unfold arStep
        rw [if_neg (by omega)]
      · have ht : t = p + m := by omega
        subst ht
        have hv : arStep p K coefs F (p + m) (p + m) r =
            F (p + m) r + arTerm p K coefs F (p + m) r := by
          unfold arStep
          rw [if_pos rfl]
        rw [hv, ih1 (p + m) r (Nat.le_refl _)]
        congr 1
        apply arTerm_congr p K coefs F (arStep p K coefs F (p + m)) (p + m) r h1
        intro s c hs
        unfold arStep
        rw [if_neg (by omega)]

theorem arLoop_eq (p K steps : Nat) (coefs : Nat → Nat → Nat → ℚ)
    (res0 : Nat → Nat → ℚ) (t r : Nat) (ht : t < steps) :
    arLoop p K steps coefs res0 t r =
      res0 t r +
        if p ≤ t then arTerm p K coefs (arLoop p K steps coefs res0) t r else 0 := by
  obtain ⟨h1, h2, h3⟩ := arLoop_invariant p K coefs res0 (steps - p)
  unfold arLoop
  rcases Nat.lt_or_ge t p with hlt | hge
  · rw [h2 t r hlt, if_neg (by omega), add_zero]
  · rw [if_pos hge]
    exact h3 t r hge (by omega)

/-- The rows of a successfully returned simulated series: seed rows hold the
intercept contribution only, later rows additionally the noise draw and the
autoregressive terms. -/
theorem varsim_ok_rows (p K steps : Nat) (coefs : Nat → Nat → Nat → ℚ)
    (icept : Intercept) (ugen : Nat → Nat → ℚ) (R : Nat → Nat → ℚ)
    (hok : varsim p K steps coefs icept ugen = .ok R) (t r : Nat)
    (ht : t < steps) :
    R t r = iceptFun icept t r +
      if p ≤ t then ugen t r + arTerm p K coefs R t r else 0 := by
  have hR : R = arLoop p K steps coefs (initResult p (iceptFun icept) ugen) := by
    cases icept with
    | none =>
      simp only [varsim, Except.ok.injEq] at hok
      exact hok.symm
    | vec v =>
      simp only [varsim, Except.ok.injEq] at hok
      exact hok.symm
    | mat rows f =>
      simp only [varsim] at hok
      by_cases h : rows = steps
      · rw [if_pos h] at hok
        simp only [Except.ok.injEq] at hok
        rw [← hok]
      · rw [if_neg h] at hok
        exact absurd hok (by simp)
  subst hR
  rw [arLoop_eq p K steps coefs _ t r ht]
  unfold initResult
  rcases Nat.lt_or_ge t p with hlt | hge
  · rw [if_neg (by omega), if_neg (by omega), if_neg (by omega), add_zero, add_zero]
  · rw [if_pos hge, if_pos hge, if_pos hge]
    ring

/-! ## Seasonal dummy lemmas -/

theorem dummy_start_spec (n fp i : Nat) (hn : 0 < n) (hi : i < n) :
    dummy_start n fp i < n ∧ (dummy_start n fp i + fp) % n = i := by
  have hn' : (0 : Int) < (n : Int) := by exact_mod_cast hn
  have hnz : (n : Int) ≠ 0 := by omega
  have hnn : 0 ≤ ((i : Int) - (fp : Int)) % (n : Int) := Int.emod_nonneg _ hnz
  have hlt : ((i : Int) - (fp : Int)) % (n : Int) < (n : Int) := Int.emod_lt_of_pos _ hn'
  have hcast : (dummy_start n fp i : Int) = ((i : Int) - (fp : Int)) % (n : Int) := by
    unfold dummy_start
    exact Int.toNat_of_nonneg hnn
  constructor
  · have hx : (dummy_start n fp i : Int) < (n : Int) := by
      rw [hcast]
      exact hlt
    exact_mod_cast hx
  · have hmod : ((dummy_start n fp i : Int) + (fp : Int)) % (n : Int) = (i : Int) := by
      rw [hcast, Int.emod_add_emod, Int.sub_add_cancel]
      exact Int.emod_eq_of_lt (by omega) (by exact_mod_cast hi)
    have hy : (((dummy_start n fp i + fp) % n : Nat) : Int) = (i : Int) := by
      push_cast
      exact hmod
    exact_mod_cast hy

/-- The strided assignment cond of the source (start ≤ r, (r - start) mod n = 0)
holds exactly when the season of row r, namely (r + first_period) mod n, is i. -/
theorem seasonal_cond (n fp r i : Nat) (hn : 0 < n) (hi : i < n) :
    (dummy_start n fp i ≤ r ∧ (r - dummy_start n fp i) % n = 0) ↔ (r + fp) % n = i := by
  obtain ⟨hslt, hsmod⟩ := dummy_start_spec n fp i hn hi
  constructor
  · rintro ⟨hle, hmod⟩
    obtain ⟨q, hq⟩ := Nat.dvd_of_mod_eq_zero hmod
    have hr : r = dummy_start n fp i + n * q := by omega
    rw [hr]
    calc (dummy_start n fp i + n * q + fp) % n
        = (dummy_start n fp i + fp + n * q) % n := by ring_nf
      _ = (dummy_start n fp i + fp) % n := Nat.add_mul_mod_self_left _ n q
      _ = i := hsmod
  · intro h
    have hmeq : (r + fp) % n = (dummy_start n fp i + fp) % n := by rw [h, hsmod]
    have hrs : r ≡ dummy_start n fp i [MOD n] :=
      Nat.ModEq.add_right_cancel' fp hmeq
    have hrn : r % n = dummy_start n fp i := by
      rw [hrs, Nat.mod_eq_of_lt hslt]
    constructor
    · calc dummy_start n fp i = r % n := hrn.symm
        _ ≤ r := Nat.mod_le r n
    · have hdm := Nat.div_add_mod r n
      have hsub : r - dummy_start n fp i = n * (r / n) := by omega
      rw [hsub]
      exact Nat.mul_mod_right n _

/-! ## Design matrix lemmas -/

theorem length_prependTrend (tord : Nat) (Z : List (List ℚ)) (i : Nat) :
    (prependTrend tord i Z).length = Z.length := by
  induction Z generalizing i with
  | nil => rfl
  | cons row rest ih => simp [prependTrend, ih]

theorem getElem?_prependTrend (tord : Nat) (Z : List (List ℚ)) (i m : Nat) :
    (prependTrend tord i Z)[m]? =
      Option.map (fun row => trendCols tord (i + m) ++ row) Z[m]? := by
  induction Z generalizing i m with
  | nil => simp [prependTrend]
  | cons row rest ih =>
    cases m with
    | zero => simp [prependTrend]
    | succ m =>
      simp only [prependTrend, List.getElem?_cons_succ]
      rw [ih (i + 1) m]
      have harith : i + 1 + m = i + (m + 1) := by omega
      rw [harith]

theorem prependTrend_zero (Z : List (List ℚ)) (i : Nat) :
    prependTrend 0 i Z = Z := by
  induction Z generalizing i with
  | nil => rfl
  | cons row rest ih => simp [prependTrend, trendCols, ih]

theorem length_lag_row (y : Nat → Nat → ℚ) (K lags t : Nat) :
    (lag_row y K lags t).length = lags * K := by
  unfold lag_row
  rw [length_concatMapRange]
  simp [Finset.sum_const, Finset.card_range]

theorem getElem?_lag_row (y : Nat → Nat → ℚ) (K lags t j v : Nat)
    (hj : j < lags) (hv : v < K) :
    (lag_row y K lags t)[j * K + v]? = some (y (t - 1 - j) v) := by
  unfold lag_row
  have h := getElem?_concatMapRange
    (fun j => (List.range K).map (fun v => y (t - 1 - j) v)) lags j v hj
    (by simpa using hv)
  simp only [List.length_map, List.length_range] at h
  rw [Finset.sum_const, Finset.card_range, smul_eq_mul] at h
  rw [h, List.getElem?_map, List.getElem?_range hv]
  rfl

/-- Any returned design matrix is the trend-prefixed list of raveled
reversed lag slices, and the trend string determines the trend order. -/
theorem get_var_endog_eq (y : Nat → Nat → ℚ) (nobs K lags tord : Nat)
    (trend : String) (Z : List (List ℚ))
    (htrend : get_trendorder trend = some tord)
    (hZ : get_var_endog y nobs K lags trend = some Z) :
    Z = prependTrend tord 0
      ((List.range' lags (nobs - lags)).map (fun t => lag_row y K lags t)) := by
  unfold get_var_endog at hZ
  rw [htrend] at hZ
  simp only [Option.some.injEq] at hZ
  by_cases hnc : trend = ("nc" : String)
  · have htz : tord = 0 := by
      subst hnc
      have hv : get_trendorder ("nc" : String) = some 0 := by decide
      rw [hv] at htrend
      simpa using htrend.symm
    rw [if_pos hnc] at hZ
    rw [← hZ, htz, prependTrend_zero]
  · rw [if_neg hnc] at hZ
    exact hZ.symm

/-- Row i of a returned design matrix, explicitly. -/
theorem get_var_endog_row (y : Nat → Nat → ℚ) (nobs K lags tord : Nat)
    (trend : String) (Z : List (List ℚ)) (i : Nat)
    (htrend : get_trendorder trend = some tord)
    (hZ : get_var_endog y nobs K lags trend = some Z)
    (hi : i < nobs - lags) :
    Z[i]? = some (trendCols tord i ++ lag_row y K lags (lags + i)) := by
  rw [get_var_endog_eq y nobs K lags tord trend Z htrend hZ]
  rw [getElem?_prependTrend]
  rw [List.getElem?_map, List.getElem?_range' lags 1 hi]
  simp

/-! ## make_lag_names lemmas -/

theorem insertAt_one_cons {α : Type} (x : α) (xs : List α) (a : α) :
    insertAt (x :: xs) 1 a = x :: a :: xs := by
  simp [insertAt]

theorem insertAt_two_cons {α : Type} (x y : α) (xs : List α) (a : α) :
    insertAt (x :: y :: xs) 2 a = x :: y :: a :: xs := by
  simp [insertAt]

theorem length_trendNames (tord : Nat) (h : tord ≤ 3) :
    (trendNames tord).length = tord := by
  interval_cases tord <;> rfl

theorem length_exogNames (m : Nat) : (exogNames m).length = m := by
  simp [exogNames]

theorem length_lagNamesOf (ns : List String) (lag : Nat) :
    (lagNamesOf ns lag).length = lag * ns.length := by
  unfold lagNamesOf
  rw [length_concatMapRange]
  simp [Finset.sum_const, Finset.card_range]

theorem exogNames_succ (m : Nat) :
    exogNames (m + 1) = exogNames m ++ [("exog" : String) ++ Nat.repr m] := by
  simp [exogNames, List.range_succ]

theorem foldl_insert_exog (tord : Nat) (A B : List String) (hA : A.length = tord)
    (m : Nat) :
    (List.range m).foldl
      (fun acc i => insertAt acc (tord + i) (("exog" : String) ++ Nat.repr i))
      (A ++ B) =
    A ++ exogNames m ++ B := by
  induction m with
  | zero => simp [exogNames]
  | succ m ih =>
    rw [List.range_succ, List.foldl_append, ih]
    simp only [List.foldl_cons, List.foldl_nil]
    have hlen : (A ++ exogNames m).length = tord + m := by
      simp [List.length_append, hA, length_exogNames]
    rw [← hlen, insertAt_at_length, exogNames_succ]
    simp [List.append_assoc]

theorem make_lag_names_list (names : List String) (lag tord m : Nat) (h : tord ≤ 3) :
    make_lag_names (.list names) lag tord (some m) =
      trendNames tord ++ exogNames m ++ lagNamesOf names lag := by
  interval_cases tord
  · show (List.range m).foldl
      (fun acc i => insertAt acc (0 + i) (("exog" : String) ++ Nat.repr i))
      (lagNamesOf names lag) = trendNames 0 ++ exogNames m ++ lagNamesOf names lag
    have := foldl_insert_exog 0 [] (lagNamesOf names lag) rfl m
    simpa using this
  · show (List.range m).foldl
      (fun acc i => insertAt acc (1 + i) (("exog" : String) ++ Nat.repr i))
      (insertAt (lagNamesOf names lag) 0 ("const" : String)) =
      trendNames 1 ++ exogNames m ++ lagNamesOf names lag
    rw [insertAt_zero]
    have := foldl_insert_exog 1 [("const" : String)] (lagNamesOf names lag) rfl m
    simpa using this
  · show (List.range m).foldl
      (fun acc i => insertAt acc (2 + i) (("exog" : String) ++ Nat.repr i))
      (insertAt (insertAt (lagNamesOf names lag) 0 ("const" : String)) 1
        ("trend" : String)) =
      trendNames 2 ++ exogNames m ++ lagNamesOf names lag
    rw [insertAt_zero, insertAt_one_cons]
    have := foldl_insert_exog 2 [("const" : String), ("trend" : String)]
      (lagNamesOf names lag) rfl m
    simpa using this
  · show (List.range m).foldl
      (fun acc i => insertAt acc (3 + i) (("exog" : String) ++ Nat.repr i))
      (insertAt (insertAt (insertAt (lagNamesOf names lag) 0 ("const" : String)) 1
        ("trend" : String)) 2 ("trend**2" : String)) =
      trendNames 3 ++ exogNames m ++ lagNamesOf names lag
    rw [insertAt_zero, insertAt_one_cons, insertAt_two_cons]
    have := foldl_insert_exog 3
      [("const" : String), ("trend" : String), ("trend**2" : String)]
      (lagNamesOf names lag) rfl m
    simpa using this

theorem make_lag_names_list_none (names : List String) (lag tord : Nat)
    (h : tord ≤ 3) :
    make_lag_names (.list names) lag tord none =
      trendNames tord ++ lagNamesOf names lag := by
  interval_cases tord
  · rfl
  · show insertAt (lagNamesOf names lag) 0 ("const" : String) =
      trendNames 1 ++ lagNamesOf names lag
    rw [insertAt_zero]
    rfl
  · show insertAt (insertAt (lagNamesOf names lag) 0 ("const" : String)) 1
      ("trend" : String) = trendNames 2 ++ lagNamesOf names lag
    rw [insertAt_zero, insertAt_one_cons]
    rfl
  · show insertAt (insertAt (insertAt (lagNamesOf names lag) 0
      ("const" : String)) 1 ("trend" : String)) 2 ("trend**2" : String) =
      trendNames 3 ++ lagNamesOf names lag
    rw [insertAt_zero, insertAt_one_cons, insertAt_two_cons]
    rfl

theorem lagNamesOf_singleton (s : String) (lag : Nat) :
    lagNamesOf [s] lag = strLagNames s lag := by
  induction lag with
  | zero => rfl
  | succ n ih =>
    show concatMapRange _ n ++ _ = strLagNames s (n + 1)
    have hn : concatMapRange
        (fun i => [s].map (fun nm =>
          ("L" : String) ++ Nat.repr (i + 1) ++ ("." : String) ++ nm)) n =
        strLagNames s n := ih
    rw [hn]
    simp [strLagNames, List.range_succ]

/-! ## Matrix access lemmas -/

theorem varsim_mat (p K steps rows : Nat) (coefs : Nat → Nat → Nat → ℚ)
    (f : Nat → Nat → ℚ) (ugen : Nat → Nat → ℚ) :
    varsim p K steps coefs (.mat rows f) ugen =
      if rows = steps then
        .ok (arLoop p K steps coefs (initResult p (iceptFun (.mat rows f)) ugen))
      else .error lengthErrMsg := rfl

theorem entry?_eq (Z : List (List ℚ)) (i j : Nat) (row : List ℚ)
    (h : Z[i]? = some row) : entry? Z i j = row[j]? := by
  unfold entry?
  rw [h]

theorem rowLength?_eq (Z : List (List ℚ)) (i : Nat) (row : List ℚ)
    (h : Z[i]? = some row) : rowLength? Z i = some row.length := by
  unfold rowLength?
  rw [h]

theorem getElem?_comp_matrix (p k : Nat) (coefs : Nat → Nat → Nat → ℚ) (r : Nat)
    (hr : r < k * p) :
    (comp_matrix p k coefs)[r]? =
      some ((List.range (k * p)).map (fun c => comp_entry p k coefs r c)) := by
  unfold comp_matrix
  rw [List.getElem?_map, List.getElem?_range hr]
  rfl

theorem entry?_comp_matrix (p k : Nat) (coefs : Nat → Nat → Nat → ℚ) (r c : Nat)
    (hr : r < k * p) (hc : c < k * p) :
    entry? (comp_matrix p k coefs) r c = some (comp_entry p k coefs r c) := by
  rw [entry?_eq _ _ _ _ (getElem?_comp_matrix p k coefs r hr)]
  rw [List.getElem?_map, List.getElem?_range hc]
  rfl

/-! ## Claim theorems -/

/-- C1: every series varsim returns has its seed rows 0..p-1 equal to the
intercept/offset contribution alone (zero when the intercept is absent, no
noise draw), while each row t with p ≤ t < steps equals the intercept
contribution plus the noise draw for step t plus the sum over lags
j = 0..p-1 of coefficient slice j applied to row t-j-1; with the zero
noise matrix (as drawn under a zero residual covariance) the rows from p
onward hence follow exactly the deterministic autoregressive recursion. -/
theorem varsim_row_structure (p K steps : Nat) (coefs : Nat → Nat → Nat → ℚ)
    (icept : Intercept) (ugen : Nat → Nat → ℚ) (R : Nat → Nat → ℚ)
    (hok : varsim p K steps coefs icept ugen = .ok R) (t r : Nat)
    (ht : t < steps) :
    R t r = iceptFun icept t r +
      if p ≤ t then ugen t r + arTerm p K coefs R t r else 0 :=
  varsim_ok_rows p K steps coefs icept ugen R hok t r ht

theorem varsim_row_structure_witness :
    varsim 1 1 2 coefsW Intercept.none ugenW =
      .ok (arLoop 1 1 2 coefsW (initResult 1 (iceptFun Intercept.none) ugenW)) ∧
    1 < 2 ∧
    arLoop 1 1 2 coefsW (initResult 1 (iceptFun Intercept.none) ugenW) 1 0 =
      iceptFun Intercept.none 1 0 +
        if 1 ≤ 1 then ugenW 1 0 +
          arTerm 1 1 coefsW
            (arLoop 1 1 2 coefsW (initResult 1 (iceptFun Intercept.none) ugenW)) 1 0
        else 0 :=
  ⟨rfl, by decide,
    varsim_row_structure 1 1 2 coefsW Intercept.none ugenW
      (arLoop 1 1 2 coefsW (initResult 1 (iceptFun Intercept.none) ugenW))
      rfl 1 0 (by decide)⟩

/-- C2: the companion matrix of coefficients of shape (p,K,K) is Kp x Kp,
its top K rows concatenate the p coefficient slices in lag order, the K x K
blocks directly below the diagonal blocks are identities, and every entry
outside the top block-row and the sub-diagonal is zero. -/
theorem comp_matrix_structure (p k : Nat) (coefs : Nat → Nat → Nat → ℚ)
    (q a b i a2 b2 r2 r c : Nat)
    (hk : 0 < k) (hq : q < p) (ha : a < k) (hb : b < k)
    (hi : i + 1 < p) (ha2 : a2 < k) (hb2 : b2 < k) (hr2 : r2 < k * p)
    (hr : r < k * p) (hc : c < k * p) (hkr : k ≤ r) (hne : r ≠ c + k) :
    (comp_matrix p k coefs).length = k * p ∧
    rowLength? (comp_matrix p k coefs) r2 = some (k * p) ∧
    entry? (comp_matrix p k coefs) a (q * k + b) = some (coefs q a b) ∧
    entry? (comp_matrix p k coefs) ((i + 1) * k + a2) (i * k + b2) =
      some (if a2 = b2 then (1 : ℚ) else 0) ∧
    entry? (comp_matrix p k coefs) r c = some 0 := by
  have hkp : k ≤ k * p := by
    have h1 := Nat.mul_le_mul_left k (show 1 ≤ p by omega)
    simpa using h1
  have hsm : (i + 1) * k = i * k + k := Nat.succ_mul i k
  have hsm2 : (i + 2) * k = i * k + k + k := by
    have := Nat.succ_mul (i + 1) k
    rw [Nat.succ_mul i k] at this
    exact this
  have hik2 : (i + 2) * k ≤ p * k := Nat.mul_le_mul_right k (by omega)
  have hik2' : i * k + k + k ≤ k * p := by
    rw [← hsm2, Nat.mul_comm k p]
    exact hik2
  refine ⟨?_, ?_, ?_, ?_, ?_⟩
  · simp [comp_matrix]
  · rw [rowLength?_eq _ _ _ (getElem?_comp_matrix p k coefs r2 hr2)]
    simp
  · have hqb : q * k + b < k * p := by
      have h1 : q * k + b < (q + 1) * k := by
        rw [Nat.succ_mul]
        omega
      have h2 : (q + 1) * k ≤ p * k := Nat.mul_le_mul_right k (by omega)
      have h3 := lt_of_lt_of_le h1 h2
      rw [Nat.mul_comm p k] at h3
      exact h3
    have haP : a < k * p := lt_of_lt_of_le ha hkp
    rw [entry?_comp_matrix p k coefs a (q * k + b) haP hqb]
    unfold comp_entry
    rw [if_pos ha]
    have hdiv : (q * k + b) / k = q := by
      rw [Nat.mul_comm q k, Nat.mul_add_div hk]
      simp [Nat.div_eq_of_lt hb]
    have hmod : (q * k + b) % k = b := by
      rw [Nat.mul_comm q k, Nat.mul_add_mod, Nat.mod_eq_of_lt hb]
    rw [hdiv, hmod]
  · have hrow : (i + 1) * k + a2 < k * p := by
      rw [hsm]
      omega
    have hcol : i * k + b2 < k * p := by
      omega
    rw [entry?_comp_matrix p k coefs _ _ hrow hcol]
    unfold comp_entry
    rw [hsm]
    rw [if_neg (by omega)]
    by_cases hab : a2 = b2
    · subst hab
      rw [if_pos (by omega), if_pos rfl]
    · rw [if_neg (by omega), if_neg hab]
  · rw [entry?_comp_matrix p k coefs r c hr hc]
    unfold comp_entry
    rw [if_neg (by omega), if_neg hne]

theorem comp_matrix_structure_witness :
    (0 < 1 ∧ 1 < 2 ∧ 0 < 1 ∧ 0 < 1 ∧ 0 + 1 < 2 ∧ 0 < 1 ∧ 0 < 1 ∧
      0 < 1 * 2 ∧ 1 < 1 * 2 ∧ 1 < 1 * 2 ∧ 1 ≤ 1 ∧ 1 ≠ 1 + 1) ∧
    ((comp_matrix 2 1 coefsW).length = 1 * 2 ∧
    rowLength? (comp_matrix 2 1 coefsW) 0 = some (1 * 2) ∧
    entry? (comp_matrix 2 1 coefsW) 0 (1 * 1 + 0) = some (coefsW 1 0 0) ∧
    entry? (comp_matrix 2 1 coefsW) ((0 + 1) * 1 + 0) (0 * 1 + 0) =
      some (if 0 = 0 then (1 : ℚ) else 0) ∧
    entry? (comp_matrix 2 1 coefsW) 1 1 = some 0) :=
  ⟨⟨by decide, by decide, by decide, by decide, by decide, by decide, by decide,
    by decide, by decide, by decide, by decide, by decide⟩,
    comp_matrix_structure 2 1 coefsW 1 0 0 0 0 0 0 1 1
      (by decide) (by decide) (by decide) (by decide) (by decide) (by decide)
      (by decide) (by decide) (by decide) (by decide) (by decide) (by decide)⟩

/-- C6: with a fixed integer seed and identical other arguments, the
simulator's output does not depend on the ambient global generator state,
so two calls produce identical output. -/
theorem varsim_seed_deterministic (p K steps : Nat)
    (coefs : Nat → Nat → Nat → ℚ) (icept : Intercept)
    (mkNoise : Nat → Nat → Nat → ℚ) (g1 g2 : Nat → Nat → ℚ) (s : Nat) :
    varsimSeeded p K steps coefs icept mkNoise g1 (some s) =
      varsimSeeded p K steps coefs icept mkNoise g2 (some s) := rfl

/-- C7: the trend-order resolver maps nc, c, ct, ctt to 0, 1, 2, 3 and
fails on every other input. -/
theorem get_trendorder_spec (trend : String)
    (h1 : trend ≠ ("nc" : String)) (h2 : trend ≠ ("c" : String))
    (h3 : trend ≠ ("ct" : String)) (h4 : trend ≠ ("ctt" : String)) :
    get_trendorder ("nc" : String) = some 0 ∧
    get_trendorder ("c" : String) = some 1 ∧
    get_trendorder ("ct" : String) = some 2 ∧
    get_trendorder ("ctt" : String) = some 3 ∧
    get_trendorder trend = none := by
  refine ⟨by decide, by decide, by decide, by decide, ?_⟩
  unfold get_trendorder
  rw [if_neg h2, if_neg h1, if_neg h3, if_neg h4]

theorem get_trendorder_spec_witness :
    (("foo" : String) ≠ ("nc" : String) ∧ ("foo" : String) ≠ ("c" : String) ∧
      ("foo" : String) ≠ ("ct" : String) ∧ ("foo" : String) ≠ ("ctt" : String)) ∧
    (get_trendorder ("nc" : String) = some 0 ∧
      get_trendorder ("c" : String) = some 1 ∧
      get_trendorder ("ct" : String) = some 2 ∧
      get_trendorder ("ctt" : String) = some 3 ∧
      get_trendorder ("foo" : String) = none) :=
  ⟨⟨by decide, by decide, by decide, by decide⟩,
    get_trendorder_spec ("foo" : String) (by decide) (by decide) (by decide)
      (by decide)⟩

/-- C8: a 2-D intercept whose row count differs from steps makes varsim
fail with the length error and return no series; with row count equal to
steps the offset is added element-wise into every row of the series. -/
theorem varsim_offset_check (p K steps rows t r : Nat)
    (coefs : Nat → Nat → Nat → ℚ) (f : Nat → Nat → ℚ) (ugen : Nat → Nat → ℚ)
    (hrows : rows ≠ steps) (ht : t < steps) :
    varsim p K steps coefs (.mat rows f) ugen = .error lengthErrMsg ∧
    varsim p K steps coefs (.mat steps f) ugen =
      .ok (arLoop p K steps coefs (initResult p (iceptFun (.mat steps f)) ugen)) ∧
    arLoop p K steps coefs (initResult p (iceptFun (.mat steps f)) ugen) t r =
      f t r +
        if p ≤ t then ugen t r +
          arTerm p K coefs
            (arLoop p K steps coefs (initResult p (iceptFun (.mat steps f)) ugen)) t r
        else 0 := by
  refine ⟨?_, ?_, ?_⟩
  · rw [varsim_mat, if_neg hrows]
  · rw [varsim_mat, if_pos rfl]
  · exact varsim_ok_rows p K steps coefs (.mat steps f) ugen
      (arLoop p K steps coefs (initResult p (iceptFun (.mat steps f)) ugen))
      (by rw [varsim_mat, if_pos rfl]) t r ht

theorem varsim_offset_check_witness :
    (3 ≠ 2 ∧ 1 < 2) ∧
    (varsim 1 1 2 coefsW (Intercept.mat 3 fW) ugenW = .error lengthErrMsg ∧
    varsim 1 1 2 coefsW (Intercept.mat 2 fW) ugenW =
      .ok (arLoop 1 1 2 coefsW (initResult 1 (iceptFun (Intercept.mat 2 fW)) ugenW)) ∧
    arLoop 1 1 2 coefsW (initResult 1 (iceptFun (Intercept.mat 2 fW)) ugenW) 1 0 =
      fW 1 0 +
        if 1 ≤ 1 then ugenW 1 0 +
          arTerm 1 1 coefsW
            (arLoop 1 1 2 coefsW (initResult 1 (iceptFun (Intercept.mat 2 fW)) ugenW)) 1 0
        else 0) :=
  ⟨⟨by decide, by decide⟩,
    varsim_offset_check 1 1 2 3 1 0 coefsW fW ugenW (by decide) (by decide)⟩

/-- C9: vech of a K x K matrix lists, column by column from the left, the
entries on and below the diagonal, so it has K(K+1)/2 elements and the
entry for row b of column i sits at offset (sum of earlier column block
lengths) + (b - i). -/
theorem vech_spec (K : Nat) (A : Nat → Nat → ℚ) (i b : Nat)
    (hib : i ≤ b) (hb : b < K) :
    (vech K A).length = K * (K + 1) / 2 ∧
    (vech K A)[vechOffset K i + (b - i)]? = some (A b i) := by
  constructor
  · unfold vech
    rw [length_concatMapRange]
    calc ∑ j ∈ Finset.range K, ((List.range' j (K - j)).map (fun b => A b j)).length
        = ∑ j ∈ Finset.range K, (K - j) := by
          apply Finset.sum_congr rfl
          intro j _
          simp
      _ = K * (K + 1) / 2 := sum_range_sub K
  · unfold vech
    have hiK : i < K := by omega
    have hrb : b - i < ((List.range' i (K - i)).map (fun b => A b i)).length := by
      simp
      omega
    have h := getElem?_concatMapRange
      (fun j => (List.range' j (K - j)).map (fun b => A b j)) K i (b - i) hiK hrb
    have hoff : (∑ j ∈ Finset.range i,
        ((List.range' j (K - j)).map (fun b => A b j)).length) = vechOffset K i := by
      unfold vechOffset
      apply Finset.sum_congr rfl
      intro j _
      simp
    rw [hoff] at h
    rw [h, List.getElem?_map, List.getElem?_range' i 1 (by omega : b - i < K - i)]
    have hib2 : i + 1 * (b - i) = b := by omega
    rw [hib2]
    rfl

theorem vech_spec_witness :
    (1 ≤ 1 ∧ 1 < 2) ∧
    ((vech 2 AW).length = 2 * (2 + 1) / 2 ∧
    (vech 2 AW)[vechOffset 2 1 + (1 - 1)]? = some (AW 1 1)) :=
  ⟨⟨by decide, by decide⟩, vech_spec 2 AW 1 1 (by decide) (by decide)⟩

/-- C3: for lags < nobs the design matrix has nobs - lags rows and
trendorder + K*lags columns; row t - lags holds the trend columns first and
then the lags preceding observations in reverse chronological order (lag 1
first), each flattened with its K variables contiguous. -/
theorem get_var_endog_design (y : Nat → Nat → ℚ) (nobs K lags tord : Nat)
    (trend : String) (Z : List (List ℚ)) (t j v c : Nat)
    (htrend : get_trendorder trend = some tord)
    (hZ : get_var_endog y nobs K lags trend = some Z)
    (hnobs : lags < nobs)
    (ht1 : lags ≤ t) (ht2 : t < nobs)
    (hj : j < lags) (hv : v < K)
    (hc : c < tord + K * lags) :
    Z.length = nobs - lags ∧
    rowLength? Z (t - lags) = some (tord + K * lags) ∧
    entry? Z (t - lags) (tord + (j * K + v)) = some (y (t - 1 - j) v) ∧
    entry? Z (t - lags) c =
      some (if c < tord then trendVal c (t - lags)
            else y (t - 1 - ((c - tord) / K)) ((c - tord) % K)) := by
  have hlen : Z.length = nobs - lags := by
    rw [get_var_endog_eq y nobs K lags tord trend Z htrend hZ, length_prependTrend]
    simp
  have hrow := get_var_endog_row y nobs K lags tord trend Z (t - lags) htrend hZ
    (by omega)
  have htt : lags + (t - lags) = t := by omega
  rw [htt] at hrow
  have hlenT : (trendCols tord (t - lags)).length = tord := by simp [trendCols]
  refine ⟨hlen, ?_, ?_, ?_⟩
  · rw [rowLength?_eq _ _ _ hrow]
    simp only [List.length_append, hlenT, length_lag_row]
    rw [Nat.mul_comm lags K]
  · rw [entry?_eq _ _ _ _ hrow, List.getElem?_append, hlenT, if_neg (by omega)]
    have hidx : tord + (j * K + v) - tord = j * K + v := by omega
    rw [hidx]
    exact getElem?_lag_row y K lags t j v hj hv
  · rw [entry?_eq _ _ _ _ hrow, List.getElem?_append, hlenT]
    by_cases hct : c < tord
    · rw [if_pos hct, if_pos hct]
      unfold trendCols
      rw [List.getElem?_map, List.getElem?_range hct]
      rfl
    · rw [if_neg hct, if_neg hct]
      have hq : c - tord < K * lags := by omega
      have hK : 0 < K := by
        rcases Nat.eq_zero_or_pos K with h0 | h0
        · rw [h0, Nat.zero_mul] at hq
          omega
        · exact h0
      have hjq : (c - tord) / K < lags := by
        rw [Nat.div_lt_iff_lt_mul hK]
        have hq2 := hq
        rw [Nat.mul_comm K lags] at hq2
        exact hq2
      have hvq : (c - tord) % K < K := Nat.mod_lt _ hK
      have hsplit : c - tord = ((c - tord) / K) * K + (c - tord) % K := by
        rw [Nat.mul_comm]
        exact (Nat.div_add_mod (c - tord) K).symm
      calc (lag_row y K lags t)[c - tord]?
          = (lag_row y K lags t)[((c - tord) / K) * K + (c - tord) % K]? := by
            rw [← hsplit]
        _ = some (y (t - 1 - (c - tord) / K) ((c - tord) % K)) :=
            getElem?_lag_row y K lags t _ _ hjq hvq

theorem get_var_endog_design_witness :
    (get_trendorder ("ct" : String) = some 2 ∧
      get_var_endog yW 3 1 1 ("ct" : String) = some designW3 ∧
      1 < 3 ∧ 1 ≤ 1 ∧ 1 < 3 ∧ 0 < 1 ∧ 0 < 1 ∧ 0 < 2 + 1 * 1) ∧
    (designW3.length = 3 - 1 ∧
    rowLength? designW3 (1 - 1) = some (2 + 1 * 1) ∧
    entry? designW3 (1 - 1) (2 + (0 * 1 + 0)) = some (yW (1 - 1 - 0) 0) ∧
    entry? designW3 (1 - 1) 0 =
      some (if 0 < 2 then trendVal 0 (1 - 1)
            else yW (1 - 1 - ((0 - 2) / 1)) ((0 - 2) % 1))) :=
  ⟨⟨by decide, rfl, by decide, by decide, by decide, by decide, by decide,
    by decide⟩,
    get_var_endog_design yW 3 1 1 2 ("ct" : String) designW3 1 0 0 0
      (by decide) rfl (by decide) (by decide) (by decide) (by decide)
      (by decide) (by decide)⟩

/-- C4: the name list is trend names, then exog placeholder names, then
L-lag names, one per variable per lag; its length is trendorder + exog
count + K * lag order, and without exog it equals the column count of the
design matrix built for the same trend specification and lag order. -/
theorem make_lag_names_layout (names : List String) (lag tord m : Nat)
    (trend : String) (y : Nat → Nat → ℚ) (nobs i : Nat) (Z : List (List ℚ))
    (htrend : get_trendorder trend = some tord)
    (hZ : get_var_endog y nobs names.length lag trend = some Z)
    (hi : i < nobs - lag) :
    make_lag_names (.list names) lag tord (some m) =
      trendNames tord ++ exogNames m ++ lagNamesOf names lag ∧
    (make_lag_names (.list names) lag tord (some m)).length =
      tord + m + names.length * lag ∧
    rowLength? Z i = some ((make_lag_names (.list names) lag tord none).length) := by
  have ht3 : tord ≤ 3 := by
    unfold get_trendorder at htrend
    split_ifs at htrend
    all_goals injection htrend with h
    all_goals omega
  refine ⟨make_lag_names_list names lag tord m ht3, ?_, ?_⟩
  · rw [make_lag_names_list names lag tord m ht3]
    simp only [List.length_append, length_trendNames tord ht3, length_exogNames,
      length_lagNamesOf]
    ring
  · rw [make_lag_names_list_none names lag tord ht3]
    have hrow := get_var_endog_row y nobs names.length lag tord trend Z i htrend hZ hi
    rw [rowLength?_eq _ _ _ hrow]
    simp only [List.length_append, length_trendNames tord ht3, length_lagNamesOf,
      length_lag_row, trendCols, List.length_map, List.length_range,
      Option.some.injEq]

theorem make_lag_names_layout_witness :
    (get_trendorder ("c" : String) = some 1 ∧
      get_var_endog yW 3 2 2 ("c" : String) = some designW4 ∧ 0 < 3 - 2) ∧
    (make_lag_names (.list [("foo" : String), ("bar" : String)]) 2 1 (some 1) =
        trendNames 1 ++ exogNames 1 ++
          lagNamesOf [("foo" : String), ("bar" : String)] 2 ∧
    (make_lag_names (.list [("foo" : String), ("bar" : String)]) 2 1 (some 1)).length =
        1 + 1 + 2 * 2 ∧
    rowLength? designW4 0 =
      some ((make_lag_names (.list [("foo" : String), ("bar" : String)]) 2 1 none).length)) :=
  ⟨⟨by decide, rfl, by decide⟩,
    make_lag_names_layout [("foo" : String), ("bar" : String)] 2 1 1
      ("c" : String) yW 3 0 designW4 (by decide) rfl (by decide)⟩

/-- C10: a single string passed as the names argument is treated as a
one-element list of names, so the lag portion of the result is L1.s, ...,
Lp.s, one name per lag, not one name per character of s. -/
theorem make_lag_names_single_string (s : String) (lag tord m : Nat)
    (h : tord ≤ 3) :
    make_lag_names (.str s) lag tord (some m) =
      trendNames tord ++ exogNames m ++ strLagNames s lag := by
  have heq : make_lag_names (.str s) lag tord (some m) =
      make_lag_names (.list [s]) lag tord (some m) := rfl
  rw [heq, make_lag_names_list [s] lag tord m h, lagNamesOf_singleton]

theorem make_lag_names_single_string_witness :
    1 ≤ 3 ∧
    make_lag_names (.str ("foo" : String)) 2 1 (some 1) =
      trendNames 1 ++ exogNames 1 ++ strLagNames ("foo" : String) 2 :=
  ⟨by decide, make_lag_names_single_string ("foo" : String) 2 1 1 (by decide)⟩

/-- C5 counterexample: at n_seasons = 3, len_endog = 1, first_period = 1,
centered = false, the code sets entry (0, 1) of the returned matrix to 1,
while the claimed formula, entry (r, i) equal to 1 exactly when
(r - first_period) mod n_seasons = i, predicts 0 there because
(0 - 1) mod 3 = 2, not 1.  So the claim fails at this input. -/
theorem seasonal_dummies_claim_counterexample :
    ¬ (entry? (seasonal_dummies 3 1 1 false) 0 1 =
        some (if ((0 : Int) - 1) % 3 = 1 then (1 : ℚ) else 0)) := by
  intro h
  have h1 : entry? (seasonal_dummies 3 1 1 false) 0 1 =
      some (seasonal_entry 3 1 false 0 1) := by
    unfold seasonal_dummies
    rw [if_neg (by decide : ¬(3 = 0))]
    have hrow : ((List.range 1).map
        (fun r => (List.range (3 - 1)).map
          (fun i => seasonal_entry 3 1 false r i)))[0]? =
        some ((List.range (3 - 1)).map (fun i => seasonal_entry 3 1 false 0 i)) := by
      rw [List.getElem?_map, List.getElem?_range (by decide : 0 < 1)]
      rfl
    rw [entry?_eq _ _ _ _ hrow, List.getElem?_map,
      List.getElem?_range (by decide : 1 < 3 - 1)]
    rfl
  have h2 : seasonal_entry 3 1 false 0 1 = 1 := by
    unfold seasonal_entry
    have hcond : dummy_start 3 1 1 ≤ 0 ∧ (0 - dummy_start 3 1 1) % 3 = 0 := by decide
    rw [if_pos hcond, if_neg (by decide : ¬(false = true)), sub_zero]
  have h3 : (if ((0 : Int) - 1) % 3 = 1 then (1 : ℚ) else 0) = 0 := by
    rw [if_neg (by decide : ¬(((0 : Int) - 1) % 3 = 1))]
  rw [h1, h2, h3] at h
  exact one_ne_zero (Option.some.inj h)

/-- C5 amended: the matrix has shape (len_endog, n_seasons - 1) and, with
centered = false, entry (r, i) is 1 exactly when
(r + first_period) mod n_seasons = i (the season of row r), else 0: the
sign of the first_period shift is the opposite of the claimed formula. -/
theorem seasonal_dummies_amended (n len fp r i : Nat)
    (hn : 0 < n) (hr : r < len) (hi : i < n - 1) :
    (seasonal_dummies n len fp false).length = len ∧
    rowLength? (seasonal_dummies n len fp false) r = some (n - 1) ∧
    entry? (seasonal_dummies n len fp false) r i =
      some (if (r + fp) % n = i then (1 : ℚ) else 0) := by
  have hn0 : n ≠ 0 := by omega
  unfold seasonal_dummies
  rw [if_neg hn0]
  have hrowq : ((List.range len).map
      (fun r => (List.range (n - 1)).map
        (fun i => seasonal_entry n fp false r i)))[r]? =
      some ((List.range (n - 1)).map (fun i => seasonal_entry n fp false r i)) := by
    rw [List.getElem?_map, List.getElem?_range hr]
    rfl
  refine ⟨by simp, ?_, ?_⟩
  · rw [rowLength?_eq _ _ _ hrowq]
    simp
  · rw [entry?_eq _ _ _ _ hrowq, List.getElem?_map, List.getElem?_range hi]
    show some (seasonal_entry n fp false r i) =
      some (if (r + fp) % n = i then (1 : ℚ) else 0)
    congr 1
    have hcond := seasonal_cond n fp r i hn (by omega)
    unfold seasonal_entry
    rw [if_congr hcond rfl rfl]
    simp

theorem seasonal_dummies_amended_witness :
    (0 < 3 ∧ 0 < 1 ∧ 1 < 3 - 1) ∧
    ((seasonal_dummies 3 1 1 false).length = 1 ∧
    rowLength? (seasonal_dummies 3 1 1 false) 0 = some (3 - 1) ∧
    entry? (seasonal_dummies 3 1 1 false) 0 1 =
      some (if (0 + 1) % 3 = 1 then (1 : ℚ) else 0)) :=
  ⟨⟨by decide, by decide, by decide⟩,
    seasonal_dummies_amended 3 1 1 0 1 (by decide) (by decide) (by decide)⟩

end VarUtil
